import Mathlib

/-!
Shallow embedding of `src/models/cmf.py` (the `CMF` estimator of the
`bayesmf` repository).

Matrices are total functions `Fin a → Fin b → ℚ`.  The transcendental
functions used by the code (`np.exp`, `np.log`, `scipy.special.psi`,
`scipy.special.gammaln`, `scipy.stats.norm.pdf`) are abstracted into a
`NumKernel` record of rational-valued functions; every theorem below is
quantified over the kernel, so it holds for any interpretation of these
functions, which is exactly the algebraic content of the spec's formulas.
-/

/-- Dense `a × b` rational matrix, mirroring a 2-D numpy array. -/
abbrev Mat (a b : ℕ) : Type := Fin a → Fin b → ℚ

/-- Abstract numeric kernel: the transcendental functions the Python code
takes from numpy/scipy, left abstract (any rational-valued interpretation). -/
structure NumKernel where
  exp : ℚ → ℚ
  log : ℚ → ℚ
  digamma : ℚ → ℚ
  gammaln : ℚ → ℚ
  normpdf : ℚ → ℚ → ℚ → ℚ

/-- The variational parameter store of a `CMF` instance:
`g, h, Eb, Elogb : V × K`, `l : K × m`, `u : D × m`, `alpha : D`. -/
structure Model (V D K m : ℕ) where
  g : Mat V K
  h : Mat V K
  Eb : Mat V K
  Elogb : Mat V K
  l : Mat K m
  u : Mat D m
  alpha : Fin D → ℚ

/-- Hyperparameters relevant to the update routines. -/
structure Hyper where
  c0 : ℚ
  sigma : ℚ
  stepSize : ℚ
  numSteps : ℕ
  maxIters : ℕ
  tolerance : ℚ

/-- `_compute_expectations(a, b)`: `Ex = a / b`, `Elogx = psi(a) - log(b)`. -/
def computeExpectations (κ : NumKernel) (a b : Mat V K) : Mat V K × Mat V K :=
  (fun v k => a v k / b v k, fun v k => κ.digamma (a v k) - κ.log (b v k))

/-- `theta = self.alpha[np.newaxis, :] + np.dot(self.l, self.u.T)`:
the `K × D` linear predictor, alpha broadcast over rows. -/
def theta (s : Model V D K m) : Mat K D :=
  fun k d => s.alpha d + ∑ j, s.l k j * s.u d j

/-- `_auxsum(theta) = np.dot(np.exp(self.Elogb), np.exp(theta))`:
`V × D` normalizer summing the per-k contributions. -/
def auxsum (κ : NumKernel) (Elogb : Mat V K) (th : Mat K D) : Mat V D :=
  fun v d => ∑ k, κ.exp (Elogb v k) * κ.exp (th k d)

/-- `np.tile(r, (V, 1))`: a length-`K` row vector tiled to `V` rows. -/
def tileRow (V : ℕ) (r : Fin K → ℚ) : Mat V K :=
  fun _ k => r k

/-- `_update_beta(X)`: closed-form Gamma coordinate update.
`g = c0/V + exp(Elogb) * dot(X / auxsum(theta), exp(theta).T)`,
`h = tile(c0 + sum(exp(theta), axis=1), (V, 1))`, then
`Eb, Elogb = _compute_expectations(g, h)`. -/
def updateBeta (κ : NumKernel) (hp : Hyper) (X : Mat V D) (s : Model V D K m) :
    Model V D K m :=
  let th := theta s
  let xauxsum : Mat V D := fun v d => X v d / auxsum κ s.Elogb th v d
  let g' : Mat V K := fun v k =>
    hp.c0 / (V : ℚ) + κ.exp (s.Elogb v k) * ∑ d, xauxsum v d * κ.exp (th k d)
  let h' : Mat V K := tileRow V (fun k => hp.c0 + ∑ d, κ.exp (th k d))
  let e := computeExpectations κ g' h'
  { s with g := g', h := h', Eb := e.1, Elogb := e.2 }

/-- Inner matrix of `_update_ql`, for the latent index `k`:
`grad = xauxsum * np.outer(np.exp(Elogb_k), np.exp(theta_k))
      - np.outer(Eb_k, np.exp(theta_k))` (a `V × D` array),
where `xauxsum = X / self._auxsum(theta)`. -/
def qlGradMat (κ : NumKernel) (X : Mat V D) (s : Model V D K m) (k : Fin K) :
    Mat V D :=
  fun v d =>
    (X v d / auxsum κ s.Elogb (theta s) v d) * (κ.exp (s.Elogb v k) * κ.exp (theta s k d))
      - s.Eb v k * κ.exp (theta s k d)

/-- The gradient vector `_update_ql` computes for row `k`:
`np.sum((grad[:, :, np.newaxis] * self.u - self.l[k, :]), axis=(0,1))` —
NB the term `self.l[k, :]` is subtracted inside the double sum over `(v, d)`. -/
def qlGrad (κ : NumKernel) (X : Mat V D) (s : Model V D K m) (k : Fin K)
    (j : Fin m) : ℚ :=
  ∑ v, ∑ d, (qlGradMat κ X s k v d * s.u d j - s.l k j)

/-- One inner step of `_update_ql`: `l_temp = np.zeros(self.l.shape)`; for each
`k`, `l_temp[k, :] = self.l[k, :] + self.step_size * grad` (gradient computed
from the current `self.l`, which is unchanged during the `k` loop); finally
`self.l = l_temp`. -/
def qlInnerStep (κ : NumKernel) (hp : Hyper) (X : Mat V D) (s : Model V D K m) :
    Model V D K m :=
  let lTemp : Mat K m :=
    (List.finRange K).foldl
      (fun t k => Function.update t k
        (fun j => s.l k j + hp.stepSize * qlGrad κ X s k j))
      (fun _ _ => 0)
  { s with l := lTemp }

/-- `_update_ql(X)`: `num_steps` inner steps. -/
def updateQl (κ : NumKernel) (hp : Hyper) (X : Mat V D) (s : Model V D K m) :
    Model V D K m :=
  (List.range hp.numSteps).foldl (fun t _ => qlInnerStep κ hp X t) s

/-- Inner matrix of `_update_qu` for the column `d`: the `V × K` array
`grad = xauxsum[:, None] * np.exp(Elogb) * np.exp(theta_d[None, :])
      - Eb * np.exp(theta_d[None, :])`,
where `xauxsum = X[:, d] / self._auxsum(theta_d)`. -/
def quGradMat (κ : NumKernel) (X : Mat V D) (s : Model V D K m) (d : Fin D) :
    Mat V K :=
  fun v k =>
    (X v d / ∑ k2, κ.exp (s.Elogb v k2) * κ.exp (theta s k2 d)) *
        κ.exp (s.Elogb v k) * κ.exp (theta s k d)
      - s.Eb v k * κ.exp (theta s k d)

/-- The gradient vector `_update_qu` computes for column `d`:
`np.sum((grad[:, :, np.newaxis] * self.l - self.u[d, :]), axis=(0,1))`. -/
def quGrad (κ : NumKernel) (X : Mat V D) (s : Model V D K m) (d : Fin D)
    (j : Fin m) : ℚ :=
  ∑ v, ∑ k, (quGradMat κ X s d v k * s.l k j - s.u d j)

/-- One inner step of `_update_qu` (mirror of `qlInnerStep` over columns). -/
def quInnerStep (κ : NumKernel) (hp : Hyper) (X : Mat V D) (s : Model V D K m) :
    Model V D K m :=
  let uTemp : Mat D m :=
    (List.finRange D).foldl
      (fun t d => Function.update t d
        (fun j => s.u d j + hp.stepSize * quGrad κ X s d j))
      (fun _ _ => 0)
  { s with u := uTemp }

/-- `_update_qu(X)`: `num_steps` inner steps. -/
def updateQu (κ : NumKernel) (hp : Hyper) (X : Mat V D) (s : Model V D K m) :
    Model V D K m :=
  (List.range hp.numSteps).foldl (fun t _ => quInnerStep κ hp X t) s

/-- `_update_alpha(X)`:
`alpha = np.log(np.sum(X, axis=0))
       - np.log(np.sum(Eb[:, :, None] * np.exp(np.dot(l, u.T)), axis=(0,1)))`. -/
def updateAlpha (κ : NumKernel) (X : Mat V D) (s : Model V D K m) :
    Model V D K m :=
  { s with alpha := fun d =>
      κ.log (∑ v, X v d) -
        κ.log (∑ v, ∑ k, s.Eb v k * κ.exp (∑ j, s.l k j * s.u d j)) }

/-- `_gamma_term(a, b, shape, rate, Ex, Elogx)` with scalar `a, b`. -/
def gammaTerm (κ : NumKernel) (a b : ℚ) (shp rate Ex Elogx : Mat V K) : ℚ :=
  ∑ v, ∑ k, ((a - shp v k) * Elogx v k - (b - rate v k) * Ex v k
    + κ.gammaln (shp v k) - shp v k * κ.log (rate v k))

/-- `_bound(X)`: the ELBO used for convergence monitoring. -/
def bound (κ : NumKernel) (hp : Hyper) (X : Mat V D) (s : Model V D K m) : ℚ :=
  let th := theta s
  (∑ v, ∑ d, (X v d * κ.log (auxsum κ s.Elogb th v d) - ∑ k, s.Eb v k * th k d))
    + gammaTerm κ hp.c0 (hp.c0 / (V : ℚ)) s.g s.h s.Eb s.Elogb
    + (∑ k, ∑ j, κ.log (κ.normpdf (s.l k j) 0 hp.sigma))
    + (∑ d, ∑ j, κ.log (κ.normpdf (s.u d j) 0 1))

/-- One full cycle of the body of `_update`'s loop:
alpha, then l, then u, then (if `update_beta`) beta. -/
def cycle (κ : NumKernel) (hp : Hyper) (X : Mat V D) (ub : Bool)
    (s : Model V D K m) : Model V D K m :=
  let s1 := updateAlpha κ X s
  let s2 := updateQl κ hp X s1
  let s3 := updateQu κ hp X s2
  if ub then updateBeta κ hp X s3 else s3

/-- The convergence test `chg < self.tolerance` where
`chg = (elbo_new - elbo_old) / abs(elbo_old)`.  `elbo_old = -np.inf` is
modelled by `none`: in IEEE arithmetic the resulting `chg` is NaN
(`inf / inf`), and `NaN < tolerance` is `False`, so no early stop. -/
def chgBelow (old : Option ℚ) (enew tol : ℚ) : Bool :=
  match old with
  | none => false
  | some e => decide ((enew - e) / |e| < tol)

/-- `_update(X, update_beta)`: the loop `for i in range(max_iters)` with the
early `break`, carrying `elbo_old` (initially `-np.inf`, i.e. `none`).
Returns the final store together with the number of cycles executed. -/
def updateLoop (κ : NumKernel) (hp : Hyper) (X : Mat V D) (ub : Bool) :
    ℕ → Model V D K m → Option ℚ → Model V D K m × ℕ
  | 0, s, _ => (s, 0)
  | n + 1, s, old =>
    let s' := cycle κ hp X ub s
    let enew := bound κ hp X s'
    if chgBelow old enew hp.tolerance then (s', 1)
    else
      let r := updateLoop κ hp X ub n s' (some enew)
      (r.1, r.2 + 1)

/-- `_update(X, update_beta)` as called: `max_iters` budget, `elbo_old = -inf`. -/
def update (κ : NumKernel) (hp : Hyper) (X : Mat V D) (ub : Bool)
    (s : Model V D K m) : Model V D K m × ℕ :=
  updateLoop κ hp X ub hp.maxIters s none

/-- Python exceptions surfaced by `transform`. -/
inductive PyError where
  | valueError (msg : String)
  | typeError (msg : String)
  deriving DecidableEq, Repr

/-- `transform(X, attr)`.  The guards are modelled faithfully:
`if not hasattr(self, 'Eb')` raises `ValueError('No beta initialized.')`;
`if not self.Eb.shape[0] == V` raises `ValueError('Feature dim mismatch.')`.
After the guards the code executes `self._init_ql()`, but `_init_ql(self, D)`
requires the positional argument `D`, so Python raises a `TypeError` there
(and the next line would call `self._init_alpha(D)`, a method that does not
exist); execution never reaches `self._update(X, update_beta=False)` or the
final `getattr(self, attr)`. -/
def transform (hasBeta : Bool) (fittedV : ℕ) (V D : ℕ) (attr : String) :
    Except PyError String :=
  if !hasBeta then
    Except.error (PyError.valueError "No beta initialized.")
  else if fittedV ≠ V then
    Except.error (PyError.valueError "Feature dim mismatch.")
  else
    Except.error
      (PyError.typeError "init_ql missing 1 required positional argument D")

/-- The consistency invariant of the spec: `Eb = g / h` and
`Elogb = digamma(g) - log(h)` entrywise, relative to the current `(g, h)`. -/
def consistent (κ : NumKernel) (s : Model V D K m) : Prop :=
  (∀ v k, s.Eb v k = s.g v k / s.h v k) ∧
  (∀ v k, s.Elogb v k = κ.digamma (s.g v k) - κ.log (s.h v k))

/-- The l-gradient as the spec sentence words it: the sum over `(v, d)` of
the gradient matrix outer-producted with `u`, minus `l_k` itself — the prior
term subtracted once, outside the double sum.  (Spec-side definition, for
comparison against `qlGrad`, which is translated from the source.) -/
def qlGradSpec (κ : NumKernel) (X : Mat V D) (s : Model V D K m) (k : Fin K)
    (j : Fin m) : ℚ :=
  (∑ v, ∑ d, qlGradMat κ X s k v d * s.u d j) - s.l k j

/-- One inner step of the l update under the claim's sequential-update
reading: each row update is committed to `l` before the next latent index
`k` is processed, so later rows see earlier same-step updates.  (Spec-side
definition, for comparison against `qlInnerStep`.) -/
def qlInnerStepSeq (κ : NumKernel) (hp : Hyper) (X : Mat V D)
    (s : Model V D K m) : Model V D K m :=
  (List.finRange K).foldl
    (fun t k =>
      { t with l := (Function.update t.l k
          (fun j => t.l k j + hp.stepSize * qlGrad κ X t k j)) })
    s

/-- The l update under the claim's sequential-update reading. -/
def updateQlSeq (κ : NumKernel) (hp : Hyper) (X : Mat V D)
    (s : Model V D K m) : Model V D K m :=
  (List.range hp.numSteps).foldl (fun t _ => qlInnerStepSeq κ hp X t) s

/-- Concrete kernel: `exp` interpreted as the constant 1, the remaining
functions as the identity / first projection. -/
def κ0 : NumKernel :=
  { exp := fun _ => 1, log := id, digamma := id, gammaln := id,
    normpdf := fun x _ _ => x }

/-- Concrete kernel with `exp` interpreted as the identity. -/
def κ1 : NumKernel :=
  { exp := id, log := id, digamma := id, gammaln := id,
    normpdf := fun x _ _ => x }

/-- Concrete hyperparameters: one inner step, one outer iteration. -/
def hp0 : Hyper :=
  { c0 := 1, sigma := 1, stepSize := 1, numSteps := 1, maxIters := 1,
    tolerance := 1 }

/-- Concrete 1×1 input matrix of zeros. -/
def X0 : Mat 1 1 := fun _ _ => 0

/-- Concrete 1×1 input matrix of ones. -/
def X1 : Mat 1 1 := fun _ _ => 1

/-- Concrete 2×1 input matrix of zeros. -/
def X2 : Mat 2 1 := fun _ _ => 0

/-- Concrete state with `V = D = K = m = 1`, consistent under `κ0`. -/
def s0 : Model 1 1 1 1 :=
  { g := fun _ _ => 1, h := fun _ _ => 1, Eb := fun _ _ => 1,
    Elogb := fun _ _ => 0, l := fun _ _ => 1, u := fun _ _ => 1,
    alpha := fun _ => 0 }

/-- Concrete state with `V = 2`, `D = K = m = 1` and a zero `u` column,
used to exhibit the prior-term multiplicity in the l gradient. -/
def s2 : Model 2 1 1 1 :=
  { g := fun _ _ => 1, h := fun _ _ => 1, Eb := fun _ _ => 0,
    Elogb := fun _ _ => 0, l := fun _ _ => 1, u := fun _ _ => 0,
    alpha := fun _ => 0 }

/-- Concrete state with `K = 2` latent indices, used to separate
batch-from-snapshot and sequential inner-step semantics. -/
def s6 : Model 1 1 2 1 :=
  { g := fun _ _ => 1, h := fun _ _ => 1, Eb := fun _ _ => 0,
    Elogb := fun _ _ => 1, l := fun _ _ => 1, u := fun _ _ => 1,
    alpha := fun _ => 0 }

/-! ## Helper lemmas -/

theorem foldl_update_of_not_mem {ι β : Type} [DecidableEq ι] (f : ι → β)
    (L : List ι) (t : ι → β) (k : ι) (hk : k ∉ L) :
    L.foldl (fun t i => Function.update t i (f i)) t k = t k := by
  induction L generalizing t with
  | nil => rfl
  | cons a tl ih =>
    have hka : ¬(k = a ∨ k ∈ tl) := fun h => hk (List.mem_cons.mpr h)
    simp only [List.foldl_cons]
    rw [ih _ (fun h => hka (Or.inr h))]
    exact Function.update_noteq (fun h => hka (Or.inl h)) _ _

theorem foldl_update_of_mem {ι β : Type} [DecidableEq ι] (f : ι → β)
    (L : List ι) (t : ι → β) (k : ι) (hnd : L.Nodup) (hk : k ∈ L) :
    L.foldl (fun t i => Function.update t i (f i)) t k = f k := by
  induction L generalizing t with
  | nil => cases hk
  | cons a tl ih =>
    simp only [List.foldl_cons]
    rcases List.mem_cons.mp hk with h | h
    · subst h
      rw [foldl_update_of_not_mem f tl _ k (List.nodup_cons.mp hnd).1]
      exact Function.update_same _ _ _
    · exact ih _ (List.nodup_cons.mp hnd).2 h

theorem qlInnerStep_l (κ : NumKernel) (hp : Hyper) (X : Mat V D)
    (s : Model V D K m) (k : Fin K) (j : Fin m) :
    (qlInnerStep κ hp X s).l k j
      = s.l k j + hp.stepSize * qlGrad κ X s k j := by
  have h := foldl_update_of_mem
    (fun i j => s.l i j + hp.stepSize * qlGrad κ X s i j)
    (List.finRange K) (fun _ _ => 0) k (List.nodup_finRange K)
    (List.mem_finRange k)
  exact congrFun h j

theorem foldl_range_const {α : Type} (f : α → α) (n : ℕ) (s : α) :
    (List.range n).foldl (fun t _ => f t) s = f^[n] s := by
  induction n with
  | zero => rfl
  | succ n ih =>
    rw [List.range_succ, List.foldl_append, ih, List.foldl_cons,
      List.foldl_nil, Function.iterate_succ_apply']

theorem updateQl_eq_iterate (κ : NumKernel) (hp : Hyper) (X : Mat V D)
    (s : Model V D K m) :
    updateQl κ hp X s = (qlInnerStep κ hp X)^[hp.numSteps] s :=
  foldl_range_const _ _ _

/-! ## Claim theorems -/

/-- C1: after `_update_beta` runs on input `X`, the new `g` equals
`c0/V + exp(Elogb) ⊙ ((X / auxsum(theta)) · exp(theta)ᵀ)` entrywise, the new
`h` equals the row vector `c0 + Σ_d exp(theta[k,d])` tiled to `V` rows, and
`Eb`, `Elogb` are recomputed from the new `(g, h)`, where
`theta[k,d] = alpha[d] + (l·uᵀ)[k,d]` and
`auxsum(theta)[v,d] = Σ_k exp(Elogb[v,k])·exp(theta[k,d])`. -/
theorem updateBeta_formula (V D K m : ℕ) (κ : NumKernel) (hp : Hyper)
    (X : Mat V D) (s : Model V D K m) (v : Fin V) (k : Fin K) :
    (updateBeta κ hp X s).g v k
      = hp.c0 / (V : ℚ) + κ.exp (s.Elogb v k) *
          ∑ d, (X v d /
              ∑ k2, κ.exp (s.Elogb v k2) *
                κ.exp (s.alpha d + ∑ j, s.l k2 j * s.u d j)) *
            κ.exp (s.alpha d + ∑ j, s.l k j * s.u d j)
    ∧ (updateBeta κ hp X s).h v k
      = hp.c0 + ∑ d, κ.exp (s.alpha d + ∑ j, s.l k j * s.u d j)
    ∧ (updateBeta κ hp X s).Eb v k
      = (updateBeta κ hp X s).g v k / (updateBeta κ hp X s).h v k
    ∧ (updateBeta κ hp X s).Elogb v k
      = κ.digamma ((updateBeta κ hp X s).g v k)
        - κ.log ((updateBeta κ hp X s).h v k) := by
  refine ⟨?_, ?_, ?_, ?_⟩ <;>
    simp [updateBeta, theta, auxsum, tileRow, computeExpectations]

/-- C5: `_update_alpha` sets
`alpha[d] = log(Σ_v X[v,d]) - log(Σ_v Σ_k Eb[v,k]·exp((l·uᵀ)[k,d]))`
for every column `d`. -/
theorem updateAlpha_formula (V D K m : ℕ) (κ : NumKernel) (X : Mat V D)
    (s : Model V D K m) (d : Fin D) :
    (updateAlpha κ X s).alpha d
      = κ.log (∑ v, X v d) -
          κ.log (∑ v, ∑ k, s.Eb v k * κ.exp (∑ j, s.l k j * s.u d j)) := by
  simp [updateAlpha]

/-- C10: after `_update_beta`, all `V` rows of the rate matrix `h` are
identical: `h` is the length-`K` vector `c0 + Σ_d exp(theta[k,d])` tiled to
`V` rows, carrying no per-row information. -/
theorem updateBeta_h_rows_identical (V D K m : ℕ) (κ : NumKernel)
    (hp : Hyper) (X : Mat V D) (s : Model V D K m) (v v2 : Fin V)
    (k : Fin K) :
    (updateBeta κ hp X s).h v k = (updateBeta κ hp X s).h v2 k
    ∧ (updateBeta κ hp X s).h v k
        = hp.c0 + ∑ d, κ.exp (theta s k d) := by
  exact ⟨rfl, rfl⟩

/-- C2 (amended): in `_update_ql`, the gradient for row `k` equals
`Σ_{v,d} gradMat[v,d]·u[d,:]` minus `V·D·l_k` — the prior term `-l_k` sits
inside the double sum over `(v, d)`, so it is subtracted `V·D` times, not
once — and the row is updated as `l_k ← l_k + step_size·gradient`. -/
theorem qlGrad_formula (V D K m : ℕ) (κ : NumKernel) (hp : Hyper)
    (X : Mat V D) (s : Model V D K m) (k : Fin K) (j : Fin m) :
    qlGrad κ X s k j
      = (∑ v, ∑ d, qlGradMat κ X s k v d * s.u d j)
        - (V : ℚ) * (D : ℚ) * s.l k j
    ∧ (qlInnerStep κ hp X s).l k j
      = s.l k j + hp.stepSize * qlGrad κ X s k j := by
  constructor
  · unfold qlGrad
    simp only [Finset.sum_sub_distrib, Finset.sum_const, Finset.card_univ,
      Fintype.card_fin, nsmul_eq_mul]
    ring
  · exact qlInnerStep_l κ hp X s k j

/-- C2 counterexample: at `V = 2`, `D = K = m = 1`, with `exp` interpreted
as the constant 1, zero input and zero `u`, the gradient the code computes
(`-2`, prior term subtracted `V·D = 2` times) differs from the claim's
formula (`-1`, prior term subtracted once). -/
theorem qlGrad_claim_counterexample :
    qlGrad κ0 X2 s2 0 0 ≠ qlGradSpec κ0 X2 s2 0 0 := by
  have h1 : qlGrad κ0 X2 s2 0 0 = -2 := by
    norm_num [qlGrad, qlGradMat, auxsum, theta, κ0, X2, s2,
      Fin.sum_univ_two, Fin.sum_univ_one]
  have h2 : qlGradSpec κ0 X2 s2 0 0 = -1 := by
    norm_num [qlGradSpec, qlGradMat, auxsum, theta, κ0, X2, s2,
      Fin.sum_univ_two, Fin.sum_univ_one]
  rw [h1, h2]
  norm_num

/-- C6 (amended): within each inner gradient step of the l update, theta and
auxsum are recomputed before each latent index `k` is processed, but from the
snapshot of `l` taken at the start of that inner step: row updates are
written to the temporary `l_temp` and committed to `l` only when the step
ends, so the gradient for index `k` does not see same-step updates to other
indices (synchronous-batch semantics over a snapshot, not sequential). -/
theorem updateQl_batch_semantics (V D K m : ℕ) (κ : NumKernel) (hp : Hyper)
    (X : Mat V D) (s : Model V D K m) :
    updateQl κ hp X s = (qlInnerStep κ hp X)^[hp.numSteps] s
    ∧ ∀ (t : Model V D K m) (k : Fin K) (j : Fin m),
        (qlInnerStep κ hp X t).l k j
          = t.l k j + hp.stepSize * qlGrad κ X t k j := by
  exact ⟨updateQl_eq_iterate κ hp X s, fun t k j => qlInnerStep_l κ hp X t k j⟩

/-- C6 counterexample: at `V = D = 1`, `K = 2`, `m = 1`, with `exp`
interpreted as the identity, one inner step of the code's l update (batch
over the step-start snapshot) gives `l[1] = 1/2`, while the claim's
sequential semantics (row 1 seeing row 0's same-step update) gives
`l[1] = 2/3`. -/
theorem updateQl_seq_counterexample :
    (updateQl κ1 hp0 X1 s6).l 1 0 ≠ (updateQlSeq κ1 hp0 X1 s6).l 1 0 := by
  have hfr : List.finRange 2 = [0, 1] := by decide
  have h10 : (1 : Fin 2) ≠ 0 := by decide
  have h01 : (0 : Fin 2) ≠ 1 := by decide
  have hbatch : (updateQl κ1 hp0 X1 s6).l 1 0 = 1 / 2 := by
    norm_num [updateQl, qlInnerStep, hp0, hfr, h10, h01,
      List.range_succ, List.range_zero, List.foldl_cons, List.foldl_nil,
      Function.update_apply, qlGrad, qlGradMat, auxsum, theta, κ1, X1, s6,
      Fin.sum_univ_two, Fin.sum_univ_one]
  have hseq : (updateQlSeq κ1 hp0 X1 s6).l 1 0 = 2 / 3 := by
    norm_num [updateQlSeq, qlInnerStepSeq, hp0, hfr, h10, h01,
      List.range_succ, List.range_zero, List.foldl_cons, List.foldl_nil,
      Function.update_apply, qlGrad, qlGradMat, auxsum, theta, κ1, X1, s6,
      Fin.sum_univ_two, Fin.sum_univ_one]
  rw [hbatch, hseq]
  norm_num

theorem one_le_updateLoop_count (κ : NumKernel) (hp : Hyper) (X : Mat V D)
    (ub : Bool) (n : ℕ) (s : Model V D K m) (old : Option ℚ) :
    1 ≤ (updateLoop κ hp X ub (n + 1) s old).2 := by
  simp only [updateLoop]
  split <;> simp

theorem updateLoop_none_succ (κ : NumKernel) (hp : Hyper) (X : Mat V D)
    (ub : Bool) (n : ℕ) (s : Model V D K m) :
    updateLoop κ hp X ub (n + 1) s none
      = ((updateLoop κ hp X ub n (cycle κ hp X ub s)
            (some (bound κ hp X (cycle κ hp X ub s)))).1,
         (updateLoop κ hp X ub n (cycle κ hp X ub s)
            (some (bound κ hp X (cycle κ hp X ub s)))).2 + 1) := rfl

theorem updateLoop_some_succ (κ : NumKernel) (hp : Hyper) (X : Mat V D)
    (ub : Bool) (n : ℕ) (s : Model V D K m) (e : ℚ) :
    updateLoop κ hp X ub (n + 1) s (some e)
      = if chgBelow (some e) (bound κ hp X (cycle κ hp X ub s)) hp.tolerance
          then (cycle κ hp X ub s, 1)
          else ((updateLoop κ hp X ub n (cycle κ hp X ub s)
                  (some (bound κ hp X (cycle κ hp X ub s)))).1,
                (updateLoop κ hp X ub n (cycle κ hp X ub s)
                  (some (bound κ hp X (cycle κ hp X ub s)))).2 + 1) := rfl

theorem chgBelow_some_iff (e b tol : ℚ) :
    chgBelow (some e) b tol = true ↔ (b - e) / |e| < tol := by
  simp [chgBelow]

theorem updateQl_fields (κ : NumKernel) (hp : Hyper) (X : Mat V D)
    (s : Model V D K m) :
    (updateQl κ hp X s).g = s.g ∧ (updateQl κ hp X s).h = s.h ∧
    (updateQl κ hp X s).Eb = s.Eb ∧ (updateQl κ hp X s).Elogb = s.Elogb := by
  unfold updateQl
  generalize List.range hp.numSteps = L
  induction L generalizing s with
  | nil => exact ⟨rfl, rfl, rfl, rfl⟩
  | cons a tl ih =>
    simp only [List.foldl_cons]
    exact ih (qlInnerStep κ hp X s)

theorem updateQu_fields (κ : NumKernel) (hp : Hyper) (X : Mat V D)
    (s : Model V D K m) :
    (updateQu κ hp X s).g = s.g ∧ (updateQu κ hp X s).h = s.h ∧
    (updateQu κ hp X s).Eb = s.Eb ∧ (updateQu κ hp X s).Elogb = s.Elogb := by
  unfold updateQu
  generalize List.range hp.numSteps = L
  induction L generalizing s with
  | nil => exact ⟨rfl, rfl, rfl, rfl⟩
  | cons a tl ih =>
    simp only [List.foldl_cons]
    exact ih (quInnerStep κ hp X s)

theorem cycle_false_eq (κ : NumKernel) (hp : Hyper) (X : Mat V D)
    (s : Model V D K m) :
    cycle κ hp X false s
      = updateQu κ hp X (updateQl κ hp X (updateAlpha κ X s)) := rfl

theorem cycle_true_eq (κ : NumKernel) (hp : Hyper) (X : Mat V D)
    (s : Model V D K m) :
    cycle κ hp X true s
      = updateBeta κ hp X
          (updateQu κ hp X (updateQl κ hp X (updateAlpha κ X s))) := rfl

theorem consistent_updateBeta (κ : NumKernel) (hp : Hyper) (X : Mat V D)
    (s : Model V D K m) : consistent κ (updateBeta κ hp X s) :=
  ⟨fun _ _ => rfl, fun _ _ => rfl⟩

theorem consistent_cycle (κ : NumKernel) (hp : Hyper) (X : Mat V D)
    (ub : Bool) (s : Model V D K m) (hs : consistent κ s) :
    consistent κ (cycle κ hp X ub s) := by
  cases ub with
  | false =>
    rw [cycle_false_eq]
    obtain ⟨h1, h2⟩ := hs
    have fl := updateQl_fields κ hp X (updateAlpha κ X s)
    have fu := updateQu_fields κ hp X (updateQl κ hp X (updateAlpha κ X s))
    constructor <;> intro v k
    · rw [fu.2.2.1, fl.2.2.1, fu.1, fl.1, fu.2.1, fl.2.1]
      exact h1 v k
    · rw [fu.2.2.2, fl.2.2.2, fu.1, fl.1, fu.2.1, fl.2.1]
      exact h2 v k
  | true =>
    rw [cycle_true_eq]
    exact consistent_updateBeta κ hp X _

theorem consistent_updateLoop (κ : NumKernel) (hp : Hyper) (X : Mat V D)
    (ub : Bool) :
    ∀ (n : ℕ) (s : Model V D K m) (old : Option ℚ), consistent κ s →
      consistent κ (updateLoop κ hp X ub n s old).1 := by
  intro n
  induction n with
  | zero => intro s old hs; exact hs
  | succ n ih =>
    intro s old hs
    have hc := consistent_cycle κ hp X ub s hs
    simp only [updateLoop]
    split
    · exact hc
    · exact ih _ _ hc

/-- C3: the update loop breaks early exactly when
`(bound_new - bound_old) / |bound_old|` is below `tolerance`; because
`bound_old` starts at `-inf` (modelled `none`, the IEEE comparison with the
resulting NaN being `False`) the first outer iteration never triggers early
stopping, for every tolerance; and with `max_iters = 1` exactly one full
cycle of alpha, l, u, (beta) updates is performed. -/
theorem updateLoop_control (V D K m : ℕ) (κ : NumKernel) (hp : Hyper)
    (X : Mat V D) (ub : Bool) (s : Model V D K m) (e : ℚ) (n : ℕ) :
    update κ { hp with maxIters := 1 } X ub s
      = (cycle κ { hp with maxIters := 1 } X ub s, 1)
    ∧ 2 ≤ (updateLoop κ hp X ub (n + 2) s none).2
    ∧ ((updateLoop κ hp X ub (n + 2) s (some e)).2 = 1 ↔
        (bound κ hp X (cycle κ hp X ub s) - e) / |e| < hp.tolerance) := by
  refine ⟨?_, ?_, ?_⟩
  · rfl
  · have h := one_le_updateLoop_count κ hp X ub n (cycle κ hp X ub s)
      (some (bound κ hp X (cycle κ hp X ub s)))
    rw [updateLoop_none_succ]
    exact Nat.succ_le_succ h
  · rw [updateLoop_some_succ]
    by_cases hc : (bound κ hp X (cycle κ hp X ub s) - e) / |e| < hp.tolerance
    · rw [if_pos ((chgBelow_some_iff _ _ _).mpr hc)]
      simp [hc]
    · rw [if_neg (fun hb => hc ((chgBelow_some_iff _ _ _).mp hb))]
      have h := one_le_updateLoop_count κ hp X ub n (cycle κ hp X ub s)
        (some (bound κ hp X (cycle κ hp X ub s)))
      simp only [hc, iff_false]
      omega

/-- C7: `_update_beta` (the only update that changes `(g, h)`) recomputes
`Eb = g/h` and `Elogb = digamma(g) - log(h)` from the new `(g, h)`;
`_update_alpha`, `_update_ql`, `_update_qu` leave `g, h, Eb, Elogb`
untouched; hence the consistency invariant is preserved by the whole
update loop — `Eb`/`Elogb` are never stale relative to `(g, h)`. -/
theorem expectations_never_stale (V D K m : ℕ) (κ : NumKernel) (hp : Hyper)
    (X : Mat V D) (ub : Bool) (n : ℕ) (s : Model V D K m) (old : Option ℚ) :
    consistent κ (updateBeta κ hp X s)
    ∧ ((updateAlpha κ X s).g = s.g ∧ (updateAlpha κ X s).h = s.h
        ∧ (updateAlpha κ X s).Eb = s.Eb ∧ (updateAlpha κ X s).Elogb = s.Elogb)
    ∧ ((updateQl κ hp X s).g = s.g ∧ (updateQl κ hp X s).h = s.h
        ∧ (updateQl κ hp X s).Eb = s.Eb ∧ (updateQl κ hp X s).Elogb = s.Elogb)
    ∧ ((updateQu κ hp X s).g = s.g ∧ (updateQu κ hp X s).h = s.h
        ∧ (updateQu κ hp X s).Eb = s.Eb ∧ (updateQu κ hp X s).Elogb = s.Elogb)
    ∧ (consistent κ s → consistent κ (updateLoop κ hp X ub n s old).1) :=
  ⟨consistent_updateBeta κ hp X s, ⟨rfl, rfl, rfl, rfl⟩,
    updateQl_fields κ hp X s, updateQu_fields κ hp X s,
    fun hs => consistent_updateLoop κ hp X ub n s old hs⟩

/-- Witness for C7 at a concrete consistent state. -/
theorem expectations_never_stale_witness :
    consistent κ0 s0 ∧ consistent κ0 (updateLoop κ0 hp0 X0 true 1 s0 none).1 := by
  have hs : consistent κ0 s0 := by
    constructor <;> intro v k <;> norm_num [κ0, s0]
  exact ⟨hs,
    (expectations_never_stale 1 1 1 1 κ0 hp0 X0 true 1 s0 none).2.2.2.2 hs⟩

/-- C8: for strictly positive `c0`, `V ≥ 1`, any strictly positive
interpretation of `exp`, and entrywise nonnegative `X`, every entry of `g`
and `h` is strictly positive after `_update_beta`. -/
theorem updateBeta_positive (V D K m : ℕ) (κ : NumKernel) (hp : Hyper)
    (X : Mat V D) (s : Model V D K m) (hc0 : 0 < hp.c0) (hV : 0 < V)
    (hexp : ∀ x, 0 < κ.exp x) (hX : ∀ v d, 0 ≤ X v d) (v : Fin V)
    (k : Fin K) :
    0 < (updateBeta κ hp X s).g v k ∧ 0 < (updateBeta κ hp X s).h v k := by
  constructor
  · show 0 < hp.c0 / (V : ℚ) + κ.exp (s.Elogb v k) *
      ∑ d, (X v d / auxsum κ s.Elogb (theta s) v d) * κ.exp (theta s k d)
    have h1 : 0 < hp.c0 / (V : ℚ) := div_pos hc0 (by exact_mod_cast hV)
    have h2 : 0 ≤ κ.exp (s.Elogb v k) *
        ∑ d, (X v d / auxsum κ s.Elogb (theta s) v d) * κ.exp (theta s k d) := by
      refine mul_nonneg (hexp _).le (Finset.sum_nonneg fun d _ => ?_)
      refine mul_nonneg (div_nonneg (hX v d) ?_) (hexp _).le
      exact Finset.sum_nonneg fun k2 _ => mul_nonneg (hexp _).le (hexp _).le
    linarith
  · show 0 < hp.c0 + ∑ d, κ.exp (theta s k d)
    have h3 : 0 ≤ ∑ d, κ.exp (theta s k d) :=
      Finset.sum_nonneg fun d _ => (hexp _).le
    linarith

/-- Witness for C8 at a concrete positive configuration. -/
theorem updateBeta_positive_witness :
    (0 < hp0.c0 ∧ 0 < 1 ∧ (∀ x : ℚ, 0 < κ0.exp x)
      ∧ (∀ (v : Fin 1) (d : Fin 1), 0 ≤ X0 v d))
    ∧ (0 < (updateBeta κ0 hp0 X0 s0).g 0 0
        ∧ 0 < (updateBeta κ0 hp0 X0 s0).h 0 0) := by
  refine ⟨⟨by norm_num [hp0], by norm_num, fun x => by norm_num [κ0],
    fun v d => by norm_num [X0]⟩, ?_⟩
  exact updateBeta_positive 1 1 1 1 κ0 hp0 X0 s0 (by norm_num [hp0])
    (by norm_num) (fun x => by norm_num [κ0]) (fun v d => by norm_num [X0]) 0 0

/-- C4: on a fitted instance (beta present) and an `X` with matching row
count, `transform` never reinitializes `l, u, alpha`, never runs the update
loop, and never returns `getattr(self, attr)`: it raises a `TypeError`,
because the source calls `self._init_ql()` without the required positional
argument `D` (and the next line would call the nonexistent `_init_alpha`). -/
theorem transform_raises_typeError (V D : ℕ) (attr : String) :
    transform true V V D attr
      = Except.error
          (PyError.typeError
            "init_ql missing 1 required positional argument D") := by
  simp [transform]

/-- C9: `transform` raises `ValueError('No beta initialized.')` whenever no
beta is present, and `ValueError('Feature dim mismatch.')` whenever the row
count of `X` differs from the fitted one; both guards fire before any
reinitialization or update is reached. -/
theorem transform_guards (fv V D : ℕ) (attr : String) :
    transform false fv V D attr
      = Except.error (PyError.valueError "No beta initialized.")
    ∧ (fv ≠ V → transform true fv V D attr
        = Except.error (PyError.valueError "Feature dim mismatch.")) := by
  constructor
  · rfl
  · intro h
    simp [transform, h]

/-- Witness for C9 at concrete shapes. -/
theorem transform_guards_witness :
    transform false 3 3 2 "l"
      = Except.error (PyError.valueError "No beta initialized.")
    ∧ ((3 : ℕ) ≠ 4 ∧ transform true 3 4 2 "l"
        = Except.error (PyError.valueError "Feature dim mismatch.")) :=
  ⟨(transform_guards 3 3 2 "l").1, by decide,
    (transform_guards 3 4 2 "l").2 (by decide)⟩
